import Mathlib

/-!
# Verification of the gobusgen schema compiler core

Shallow embedding of the `gobusgen` parser pipeline
(`internal/parser/parser.go`, `internal/model/event.go`) and of the
behavioural contract of the generated bus runtime.

Modelling conventions:
* Go ASTs are embedded as inductive types carrying exactly the fields the
  parser inspects; AST nodes the parser treats uniformly under `default:`
  branches are collapsed into `other`-style constructors.
* Go `map` tables are association lists where insertion prepends and lookup
  returns the first hit, giving Go's overwrite-on-assign semantics.
* `strconv.Unquote` on a string literal produced by `go/parser` always
  succeeds, so string literals carry their unquoted contents directly.
* `unicode.IsLetter`/`IsDigit`/`ToUpper` are modelled by their ASCII
  restrictions (`Char.isAlpha`, `Char.isDigit`, `Char.toUpper`); none of the
  verified properties depend on non-ASCII classification.
* Go strings compare byte-wise over UTF-8; UTF-8 encoding preserves
  code-point order, so the `String` linear order (code-point lexicographic)
  is the same order.
-/

namespace Gobusgen

/-- Kind of a Go basic literal (`token.STRING`, `token.INT`, ...). -/
inductive LitKind where
  | str
  | int
  | float
  | char
  | imag
deriving DecidableEq, Repr

/-- A call argument as the parser inspects it: an identifier or anything
else (the parser only ever checks `k.Args[0].(*ast.Ident)`). -/
inductive ArgExpr where
  | identA (name : String)
  | otherA
deriving DecidableEq, Repr

/-- A Go expression in a position the parser inspects as a map key or a
constant value (`ast.BasicLit`, `ast.Ident`, `ast.CallExpr`, anything else).
For a call, `fn` is `some f` when `Fun` is the identifier `f` and `none`
otherwise; `lit` carries the unquoted contents for string literals. -/
inductive GoExpr where
  | lit (kind : LitKind) (value : String)
  | identE (name : String)
  | call (fn : Option String) (args : List ArgExpr)
  | other
deriving DecidableEq, Repr

/-- The type expression of a payload composite literal
(`ast.Ident`, `ast.SelectorExpr`, anything else). For a selector,
`pkg` is `some p` when `X` is the identifier `p` and `none` otherwise. -/
inductive PayloadType where
  | identT (name : String)
  | selectorT (pkg : Option String) (sel : String)
  | otherT
deriving DecidableEq, Repr

/-- A map-literal value position: a composite literal with a type
expression, or anything else. -/
inductive PayloadValue where
  | composite (type : PayloadType)
  | otherVal
deriving DecidableEq, Repr

/-- One element of the map composite literal: a `KeyValueExpr`
or anything else. -/
inductive MapElt where
  | kv (key : GoExpr) (value : PayloadValue)
  | nonKV
deriving DecidableEq, Repr

/-- The type annotation on a var's composite literal. `mapType ks vs`
is `map[ks]vs` where `ks`/`vs` are `some n` when the key/value type is
the identifier `n`; `nonMap` is any non-map type. -/
inductive TypeAnnot where
  | mapType (key : Option String) (val : Option String)
  | nonMap
deriving DecidableEq, Repr

/-- A var's initializer: a composite literal (with its type annotation and
elements), or anything else. -/
inductive VarValue where
  | composite (type : TypeAnnot) (elts : List MapElt)
  | otherVal
deriving DecidableEq, Repr

/-- A `ValueSpec` inside a `var` declaration: doc comment lines, bound
names, initializer expressions. -/
structure VarSpec where
  doc : List String
  names : List String
  values : List VarValue
deriving DecidableEq, Repr

/-- A `ValueSpec` inside a `const` declaration. -/
structure ConstSpec where
  names : List String
  values : List GoExpr
deriving DecidableEq, Repr

/-- A top-level Go declaration as the parser distinguishes them:
`const` blocks, `var` blocks (with the group doc comment), anything else. -/
inductive Decl where
  | constDecl (specs : List ConstSpec)
  | varDecl (doc : List String) (specs : List VarSpec)
  | otherDecl
deriving DecidableEq, Repr

/-- A parsed Go file: its file name, every comment text in the file, and
its top-level declarations. -/
structure GoFile where
  name : String
  comments : List String
  decls : List Decl
deriving DecidableEq, Repr

/-- A Go package as returned by `parser.ParseDir`: name and files. -/
structure GoPackage where
  name : String
  files : List GoFile
deriving DecidableEq, Repr

/-- An event definition extracted from the map variable
(`model.EventDef`). -/
structure EventDef where
  Name : String
  PayloadType : String
deriving DecidableEq, Repr

/-- The complete generator input (`model.GenerateInput`). -/
structure GenerateInput where
  PackageName : String
  VarName : String
  Prefix : String
  Events : List EventDef
deriving DecidableEq, Repr

/-- Errors of the parser pipeline, one constructor per `fmt.Errorf`
site, carrying the same data the Go message interpolates. -/
inductive ParseError where
  | declarationNotFound (varName : String)
  | ambiguousDeclaration (varName : String)
  | expectedKeyValue
  | keyNotStringLit (kind : LitKind)
  | unresolvedConstant (name : String)
  | invalidKeyExpression
  | valueNotComposite (event : String)
  | unexpectedSelector (event : String)
  | unsupportedTypeExpr (event : String)
  | emptySchema
  | emptyEventName
  | invalidEventName (name : String) (c : Char)
  | duplicateEventName (name : String)
  | symbolCollision (prev curr sym : String)
  | invalidPayloadIdent (payload event : String)
deriving DecidableEq, Repr

/-! ## Go string primitives

Implemented over `String.data` character lists. Go operates on UTF-8
bytes; since a full UTF-8 encoding is a byte-prefix/suffix/substring of
another exactly when the character lists are, these agree with Go's
`strings` functions. -/

/-- `strings.HasSuffix`. -/
def goHasSuffix (s suffix : String) : Bool :=
  suffix.data.isSuffixOf s.data

/-- `strings.CutSuffix`: the string with the suffix removed, when the
suffix is present. -/
def goCutSuffix (s suffix : String) : Option String :=
  if goHasSuffix s suffix then
    some ⟨s.data.take (s.data.length - suffix.data.length)⟩
  else none

/-- `strings.CutPrefix`: the string with the prefix removed, when the
prefix is present. -/
def goCutPrefix (s pre : String) : Option String :=
  if pre.data.isPrefixOf s.data then some ⟨s.data.drop pre.data.length⟩
  else none

/-- `strings.TrimSpace` on a character list. -/
def trimChars (cs : List Char) : List Char :=
  ((cs.dropWhile Char.isWhitespace).reverse.dropWhile Char.isWhitespace).reverse

/-- `strings.TrimSpace`. -/
def goTrim (s : String) : String :=
  ⟨trimChars s.data⟩

/-- Decidable equality on parser results. -/
instance {ε α : Type} [DecidableEq ε] [DecidableEq α] :
    DecidableEq (Except ε α) := fun a b =>
  match a, b with
  | .ok x, .ok y =>
    if h : x = y then .isTrue (by rw [h]) else .isFalse (by simp [h])
  | .ok _, .error _ => .isFalse (by simp)
  | .error _, .ok _ => .isFalse (by simp)
  | .error x, .error y =>
    if h : x = y then .isTrue (by rw [h]) else .isFalse (by simp [h])

/-! ## model/event.go -/

/-- `model.DerivePrefix`: derive a symbol prefix from the var name. -/
def DerivePrefix (varName : String) : String :=
  if varName = "Events" then ""
  else
    match goCutSuffix varName "Events" with
    | some after => if after ≠ "" then after else varName
    | none => varName

/-- Character loop of `model.PascalCase`: `upper` records whether the next
kept character is upcased. -/
def pascalCaseAux : List Char → Bool → List Char
  | [], _ => []
  | r :: rs, upper =>
    if r = '.' ∨ r = '_' ∨ r = '-' then pascalCaseAux rs true
    else if upper then r.toUpper :: pascalCaseAux rs false
    else r :: pascalCaseAux rs false

/-- `model.PascalCase`: convert a dotted/underscored/hyphenated name to
PascalCase. -/
def PascalCase (s : String) : String :=
  ⟨pascalCaseAux s.data true⟩

/-! ## Constant resolution (`collectStringConsts`, `resolveStringValues`) -/

/-- A Go `map[string]string` as an association list: assignment prepends,
lookup takes the first hit (so later assignments shadow earlier ones). -/
abbrev ConstTable := List (String × String)

/-- `consts[name]` lookup. -/
def lookupConst (consts : ConstTable) (name : String) : Option String :=
  match consts with
  | [] => none
  | (k, v) :: rest => if k = name then some v else lookupConst rest name

/-- `consts[name] = v` assignment. -/
def insertConst (consts : ConstTable) (name v : String) : ConstTable :=
  (name, v) :: consts

/-- `resolveStringValues`: extract unquoted string values from a list of
expressions; non-string entries become empty slots so positional indexing
is preserved. -/
def resolveStringValues (exprs : List GoExpr) (consts : ConstTable) : List String :=
  exprs.map fun expr =>
    match expr with
    | .lit kind v => if kind = .str then v else ""
    | .identE n => (lookupConst consts n).getD ""
    | _ => ""

/-- Positional assignment of `collectStringConsts`'s name loop: name `i`
receives value `i`; names beyond the value list are skipped (Go's
`if i < len(lastValues)` guard). -/
def assignNames : ConstTable → List String → List String → ConstTable
  | t, [], _ => t
  | t, _ :: _, [] => t
  | t, n :: ns, v :: vs => assignNames (insertConst t n v) ns vs

/-- The body of `collectStringConsts`'s spec loop: compute (or inherit) the
value list, then assign each name its positional value. -/
def applyConstSpec (acc : ConstTable × List String) (spec : ConstSpec) :
    ConstTable × List String :=
  if spec.names.isEmpty then acc
  else
    let lastValues :=
      if spec.values.isEmpty then acc.2 else resolveStringValues spec.values acc.1
    (assignNames acc.1 spec.names lastValues, lastValues)

/-- Process one declaration of `collectStringConsts`'s inner loop:
only `const` blocks contribute, with `lastValues` reset per block. -/
def applyConstDecl (consts : ConstTable) (decl : Decl) : ConstTable :=
  match decl with
  | .constDecl specs => (specs.foldl applyConstSpec (consts, [])).1
  | _ => consts

/-- One pass of `collectStringConsts` over all files. -/
def constPass (files : List GoFile) (consts : ConstTable) : ConstTable :=
  files.foldl (fun c f => f.decls.foldl applyConstDecl c) consts

/-- `collectStringConsts`: two passes over the full declaration set
(`for range 2`). -/
def collectStringConsts (files : List GoFile) : ConstTable :=
  constPass files (constPass files [])

/-! ## Key and value extraction -/

/-- `resolveStringKey`: extract the string value from a map key expression;
string literals, bare const references, and `string()` conversions. -/
def resolveStringKey (key : GoExpr) (consts : ConstTable) :
    Except ParseError String :=
  match key with
  | .lit kind v =>
    if kind = .str then .ok v else .error (.keyNotStringLit kind)
  | .identE n =>
    match lookupConst consts n with
    | some v => .ok v
    | none => .error (.unresolvedConstant n)
  | .call fn args =>
    if fn = some "string" ∧ args.length = 1 then
      match args.head? with
      | some (.identA n) =>
        match lookupConst consts n with
        | some v => .ok v
        | none => .error (.unresolvedConstant n)
      | _ => .error .invalidKeyExpression
    else .error .invalidKeyExpression
  | .other => .error .invalidKeyExpression

/-- `typeExprToString`: render a payload type expression, or fail. The
event name is supplied by the caller's `"map value for %q: %w"` wrapping. -/
def typeExprToString (event : String) (t : PayloadType) :
    Except ParseError String :=
  match t with
  | .identT n => .ok n
  | .selectorT (some pkg) sel => .ok (pkg ++ "." ++ sel)
  | .selectorT none _ => .error (.unexpectedSelector event)
  | .otherT => .error (.unsupportedTypeExpr event)

/-- `extractEvents`: pull event name and payload type from each
key-value pair of the composite literal. -/
def extractEvents (elts : List MapElt) (consts : ConstTable) :
    Except ParseError (List EventDef) :=
  elts.mapM fun elt =>
    match elt with
    | .nonKV => .error .expectedKeyValue
    | .kv key value => do
      let name ← resolveStringKey key consts
      match value with
      | .otherVal => .error (.valueNotComposite name)
      | .composite t => do
        let payloadType ← typeExprToString name t
        pure { Name := name, PayloadType := payloadType }

/-! ## Directives and scanning -/

/-- `extractPrefixDirective`: scan a comment group for a
`//gobusgen:prefix` directive; a marker with no trailing text is an
explicit empty prefix, absence of the marker is `none`. -/
def extractPrefixDirective (doc : List String) : Option String :=
  doc.findSome? fun c =>
    let text := goTrim c
    match goCutPrefix text "//gobusgen:prefix" with
    | some after => some (goTrim after)
    | none => none

/-- `isMapStringAny`: the composite's type is literally `map[string]any`. -/
def isMapStringAny (t : TypeAnnot) : Bool :=
  match t with
  | .mapType (some "string") (some "any") => true
  | _ => false

/-- Character-list core of `strings.Contains`. -/
def containsAux (h n : List Char) : Bool :=
  n.isPrefixOf h ||
    match h with
    | [] => false
    | _ :: t => containsAux t n

/-- `strings.Contains`. -/
def goContains (s sub : String) : Bool :=
  containsAux s.data sub.data

/-- `isGeneratedFile`: some comment contains both `"Code generated"` and
`"DO NOT EDIT"`. -/
def isGeneratedFile (file : GoFile) : Bool :=
  file.comments.any fun c =>
    goContains c "Code generated" && goContains c "DO NOT EDIT"

/-- The directive choice of `findMapVar`: the declaration-group doc is
consulted first, the binding's own doc only when the group has no
directive. -/
def declPrefix (gdoc vdoc : List String) : Option String :=
  match extractPrefixDirective gdoc with
  | some p => some p
  | none => extractPrefixDirective vdoc

/-- Inner spec loop of `findMapVar`: first spec binding `varName` to a
`map[string]any` composite literal wins; an extraction failure aborts. -/
def findMapVarSpecs (specs : List VarSpec) (gdoc : List String)
    (varName : String) (consts : ConstTable) :
    Except ParseError (Option (List EventDef × Option String)) :=
  match specs with
  | [] => .ok none
  | vs :: rest =>
    if vs.names.head? = some varName then
      match vs.values.head? with
      | some (.composite t elts) =>
        if isMapStringAny t then
          match extractEvents elts consts with
          | .error e => .error e
          | .ok events => .ok (some (events, declPrefix gdoc vs.doc))
        else findMapVarSpecs rest gdoc varName consts
      | _ => findMapVarSpecs rest gdoc varName consts
    else findMapVarSpecs rest gdoc varName consts

/-- Declaration loop of `findMapVar`: only `var` blocks are inspected. -/
def findMapVarDecls (decls : List Decl) (varName : String)
    (consts : ConstTable) :
    Except ParseError (Option (List EventDef × Option String)) :=
  match decls with
  | [] => .ok none
  | .varDecl gdoc specs :: rest =>
    match findMapVarSpecs specs gdoc varName consts with
    | .error e => .error e
    | .ok (some r) => .ok (some r)
    | .ok none => findMapVarDecls rest varName consts
  | _ :: rest => findMapVarDecls rest varName consts

/-- `findMapVar`: look for a top-level `var <varName> = map[string]any{..}`
declaration in one file. `ok none` means not found; directives on the
declaration group take effect before directives on the binding. -/
def findMapVar (file : GoFile) (varName : String) (consts : ConstTable) :
    Except ParseError (Option (List EventDef × Option String)) :=
  findMapVarDecls file.decls varName consts

/-! ## Validation -/

/-- Characters allowed in event names: letters, digits, dot, underscore,
hyphen (ASCII restriction of `unicode.IsLetter`/`IsDigit`). -/
def isEventRune (r : Char) : Bool :=
  r.isAlpha || r.isDigit || r = '.' || r = '_' || r = '-'

/-- `containsInvalidEventRune`: the first rune that is not a letter, digit,
or recognized separator. -/
def containsInvalidEventRune (s : String) : Option Char :=
  s.data.find? fun r => !isEventRune r

/-- One segment check of `isValidGoIdent`: non-empty, first char a letter
or underscore, rest letters/digits/underscore. -/
def isIdentPart (part : List Char) : Bool :=
  match part with
  | [] => false
  | c :: rest =>
    (c.isAlpha || c = '_') && rest.all fun r => r.isAlpha || r.isDigit || r = '_'

/-- `strings.SplitN(s, ".", 2)` on characters: the part before the first
dot and, when a dot exists, the remainder after it. -/
def splitFirstDot (cs : List Char) : List Char × Option (List Char) :=
  match cs with
  | [] => ([], none)
  | c :: rest =>
    if c = '.' then ([], some rest)
    else
      let (a, b) := splitFirstDot rest
      (c :: a, b)

/-- `isValidGoIdent`: a simple or package-qualified Go identifier. -/
def isValidGoIdent (s : String) : Bool :=
  if s = "" then false
  else
    match splitFirstDot s.data with
    | (p, none) => isIdentPart p
    | (p, some q) => isIdentPart p && isIdentPart q

/-- Per-event loop of `validate`, threading the `seen` set and the
`symbols` (normalized symbol → original name) table. -/
def validateLoop (events : List EventDef) (seen : List String)
    (symbols : List (String × String)) : Except ParseError Unit :=
  match events with
  | [] => .ok ()
  | e :: rest =>
    if e.Name = "" then .error .emptyEventName
    else
      match containsInvalidEventRune e.Name with
      | some r => .error (.invalidEventName e.Name r)
      | none =>
        if e.Name ∈ seen then .error (.duplicateEventName e.Name)
        else
          match lookupConst symbols (PascalCase e.Name) with
          | some prev =>
            .error (.symbolCollision prev e.Name (PascalCase e.Name))
          | none =>
            if !isValidGoIdent e.PayloadType then
              .error (.invalidPayloadIdent e.PayloadType e.Name)
            else
              validateLoop rest (e.Name :: seen)
                ((PascalCase e.Name, e.Name) :: symbols)

/-- `validate`: schema well-formedness, reporting the first violation. -/
def validate (events : List EventDef) : Except ParseError Unit :=
  if events.isEmpty then .error .emptySchema
  else validateLoop events [] []

/-! ## Sorting and Parse -/

/-- Lexicographic `≤` on character lists by code point. Go compares
strings byte-wise over UTF-8, and UTF-8 encoding preserves code-point
order, so this is Go's string order. -/
def charListLe : List Char → List Char → Bool
  | [], _ => true
  | _ :: _, [] => false
  | a :: as, b :: bs =>
    if a < b then true
    else if a = b then charListLe as bs
    else false

/-- Go string comparison `a <= b`. -/
def goStringLe (a b : String) : Bool :=
  charListLe a.data b.data

theorem charListLe_total : ∀ as bs : List Char,
    charListLe as bs = true ∨ charListLe bs as = true
  | [], _ => .inl rfl
  | _ :: _, [] => .inr rfl
  | a :: as, b :: bs => by
    rcases lt_trichotomy a b with h | h | h
    · left; simp [charListLe, h]
    · subst h
      rcases charListLe_total as bs with ih | ih
      · left; simp [charListLe, lt_irrefl, ih]
      · right; simp [charListLe, lt_irrefl, ih]
    · right; simp [charListLe, h]

theorem charListLe_antisymm : ∀ as bs : List Char,
    charListLe as bs = true → charListLe bs as = true → as = bs
  | [], [], _, _ => rfl
  | [], _ :: _, _, h => by simp [charListLe] at h
  | _ :: _, [], h, _ => by simp [charListLe] at h
  | a :: as, b :: bs, h₁, h₂ => by
    rcases lt_trichotomy a b with h | h | h
    · simp [charListLe, lt_asymm h, ne_of_gt h] at h₂
    · subst h
      simp only [charListLe, lt_irrefl, if_false, if_pos rfl, if_neg] at h₁ h₂
      rw [charListLe_antisymm as bs h₁ h₂]
    · simp [charListLe, lt_asymm h, ne_of_gt h] at h₁

theorem charListLe_trans : ∀ as bs cs : List Char,
    charListLe as bs = true → charListLe bs cs = true → charListLe as cs = true
  | [], _, _, _, _ => rfl
  | _ :: _, [], _, h, _ => by simp [charListLe] at h
  | _ :: _, _ :: _, [], _, h => by simp [charListLe] at h
  | a :: as, b :: bs, c :: cs, h₁, h₂ => by
    by_cases hab : a < b
    · by_cases hbc : b < c
      · simp [charListLe, lt_trans hab hbc]
      · by_cases hbc' : b = c
        · subst hbc'; simp [charListLe, hab]
        · simp [charListLe, hbc, hbc'] at h₂
    · by_cases hab' : a = b
      · subst hab'
        simp only [charListLe, if_neg hab, if_pos rfl] at h₁
        by_cases hac : a < c
        · simp [charListLe, hac]
        · by_cases hac' : a = c
          · subst hac'
            simp only [charListLe, if_neg hac, if_pos rfl] at h₂ ⊢
            exact charListLe_trans as bs cs h₁ h₂
          · simp [charListLe, hac, hac'] at h₂
      · simp [charListLe, hab, hab'] at h₁

/-- Raw-name order on events, as used by
`sort.Slice(found, func(i, j) { return found[i].Name < found[j].Name })`. -/
def eventLE (a b : EventDef) : Prop := goStringLe a.Name b.Name = true

instance : DecidableRel eventLE := fun a b =>
  inferInstanceAs (Decidable (goStringLe a.Name b.Name = true))

instance : IsTotal EventDef eventLE :=
  ⟨fun a b => charListLe_total a.Name.data b.Name.data⟩

instance : IsTrans EventDef eventLE :=
  ⟨fun a b c h h' => charListLe_trans a.Name.data b.Name.data c.Name.data h h'⟩

/-- `sort.Slice(found, func(i, j) { return found[i].Name < found[j].Name })`.
Validation has already rejected duplicate names, so every sort by this
key produces the same list; insertion sort realizes it. -/
def sortEvents (events : List EventDef) : List EventDef :=
  events.insertionSort eventLE

/-- One successful match of the scanned variable: package name, extracted
events, optional prefix directive. -/
structure MatchInfo where
  pkg : String
  events : List EventDef
  prefixDirective : Option String
deriving DecidableEq, Repr

/-- The file loop of `Parse` for one package: skip generated files,
abort on extraction errors, collect matches. -/
def scanFiles (pkgName : String) (files : List GoFile) (varName : String)
    (consts : ConstTable) : Except ParseError (List MatchInfo) :=
  files.foldlM
    (fun acc file =>
      if isGeneratedFile file then pure acc
      else
        match findMapVar file varName consts with
        | .error e => .error e
        | .ok none => pure acc
        | .ok (some (events, pfx)) =>
          pure (acc ++ [{ pkg := pkgName, events := events, prefixDirective := pfx }]))
    []

/-- `parser.ParseDir`'s file filter: test files never enter a package. -/
def nonTestFiles (files : List GoFile) : List GoFile :=
  files.filter fun f => !goHasSuffix f.name "_test.go"

/-- The package loop of `Parse`: per package, build the constant table from
its (non-test) files, then scan those files. -/
def collectMatches (pkgs : List GoPackage) (varName : String) :
    Except ParseError (List MatchInfo) :=
  pkgs.foldlM
    (fun acc pkg => do
      let files := nonTestFiles pkg.files
      let ms ← scanFiles pkg.name files varName (collectStringConsts files)
      pure (acc ++ ms))
    []

/-- The tail of `Parse` once a unique match is at hand: validate, sort,
choose the prefix (directive wins over derivation). -/
def finishMatch (varName : String) (m : MatchInfo) :
    Except ParseError GenerateInput :=
  match validate m.events with
  | .error e => .error e
  | .ok _ =>
    let pfx :=
      match m.prefixDirective with
      | some p => p
      | none => DerivePrefix varName
    .ok { PackageName := m.pkg, VarName := varName, Prefix := pfx,
          Events := sortEvents m.events }

/-- `parser.Parse`: scan all packages for the map variable, demand a unique
match, validate and sort, and assemble the generator input. -/
def Parse (pkgs : List GoPackage) (varName : String) :
    Except ParseError GenerateInput :=
  match collectMatches pkgs varName with
  | .error e => .error e
  | .ok ms =>
    match ms with
    | [] => .error (.declarationNotFound varName)
    | [m] => finishMatch varName m
    | _ => .error (.ambiguousDeclaration varName)

/-! ## Bus runtime contract

Modelled from the spec: the generator's bus template itself is not part of
the scanned sources (only its integration tests are), so the generated
bus's publish path is modelled from the spec's Bus Runtime contract: a
bounded FIFO queue of fixed capacity; `Publish` attempts a non-blocking
enqueue, firing the on-publish hook on success and the on-drop hook when
the queue is full; it is a total function (it never blocks and never
returns an error to its caller). `publishCount`/`dropCount` record how
often each hook has fired. -/

/-- Modelled from the spec: the observable state of one generated bus
instance, for a fixed payload type `α`. -/
structure BusState (α : Type) where
  capacity : Nat
  queue : List (String × α)
  publishCount : Nat
  dropCount : Nat
deriving Repr

/-- Modelled from the spec: a freshly constructed bus of capacity `c`. -/
def newBus (α : Type) (c : Nat) : BusState α :=
  { capacity := c, queue := [], publishCount := 0, dropCount := 0 }

/-- Modelled from the spec: `Publish(event, payload)` — non-blocking
enqueue; on success the on-publish hook fires, on a full queue the message
is discarded and the on-drop hook fires. Total: no error, no blocking. -/
def publish (b : BusState α) (event : String) (payload : α) : BusState α :=
  if b.queue.length < b.capacity then
    { b with queue := b.queue ++ [(event, payload)],
             publishCount := b.publishCount + 1 }
  else
    { b with dropCount := b.dropCount + 1 }

/-- A sequence of publishes with no dispatcher draining the queue. -/
def publishAll (b : BusState α) (msgs : List (String × α)) : BusState α :=
  msgs.foldl (fun b m => publish b m.1 m.2) b

theorem publishAll_spec (msgs : List (String × α)) :
    ∀ b : BusState α, b.queue.length ≤ b.capacity →
      (publishAll b msgs).capacity = b.capacity ∧
      (publishAll b msgs).queue.length =
        min (b.queue.length + msgs.length) b.capacity ∧
      (publishAll b msgs).publishCount =
        b.publishCount +
          (min (b.queue.length + msgs.length) b.capacity - b.queue.length) ∧
      (publishAll b msgs).dropCount =
        b.dropCount +
          (b.queue.length + msgs.length -
            min (b.queue.length + msgs.length) b.capacity) := by
  induction msgs with
  | nil => intro b hb; simp [publishAll]; omega
  | cons m rest ih =>
    intro b hb
    by_cases h : b.queue.length < b.capacity
    · have step : publishAll b (m :: rest) =
          publishAll { b with queue := b.queue ++ [(m.1, m.2)],
                              publishCount := b.publishCount + 1 } rest := by
        simp [publishAll, publish, h]
      rw [step]
      have := ih { b with queue := b.queue ++ [(m.1, m.2)],
                          publishCount := b.publishCount + 1 }
        (by simpa using h)
      simp only [List.length_append, List.length_cons, List.length_nil] at this ⊢
      omega
    · have step : publishAll b (m :: rest) =
          publishAll { b with dropCount := b.dropCount + 1 } rest := by
        simp [publishAll, publish, h]
      rw [step]
      have := ih { b with dropCount := b.dropCount + 1 } (by simpa using hb)
      simp only [List.length_cons] at this ⊢
      omega

/-! ## Spec-side definitions (for refinement claims) -/

/-- The spec's prefix-derivation rule, in the spec's own phrasing: `""`
for the sentinel default name, the remainder for a non-trivial `Events`
suffix, the name itself otherwise. -/
def derivePrefixSpec (v : String) : String :=
  if v = "Events" then ""
  else
    let remainder : String := ⟨v.data.take (v.data.length - "Events".data.length)⟩
    if goHasSuffix v "Events" ∧ remainder ≠ "" then remainder else v

/-- Outcome classes of key resolution as the spec describes them. -/
inductive KeyResolution where
  | resolved (value : String)
  | unresolved (constName : String)
  | invalid
deriving DecidableEq, Repr

/-- The spec's key-resolution rule: exactly three accepted forms — string
literal verbatim, bare identifier via the constant table, single-argument
`string(...)` conversion of an identifier via the table — and every other
form invalid. -/
def resolveStringKeySpec (key : GoExpr) (consts : ConstTable) : KeyResolution :=
  match key with
  | .lit .str v => .resolved v
  | .identE n =>
    match lookupConst consts n with
    | some v => .resolved v
    | none => .unresolved n
  | .call (some "string") [.identA n] =>
    match lookupConst consts n with
    | some v => .resolved v
    | none => .unresolved n
  | _ => .invalid

/-- Collapse a concrete key-resolution result into the spec's outcome
classes: `unresolvedConstant` is the unresolved-constant error, every
other error is an invalid-key error. -/
def classifyKeyResult (r : Except ParseError String) : KeyResolution :=
  match r with
  | .ok v => .resolved v
  | .error (.unresolvedConstant n) => .unresolved n
  | .error _ => .invalid

/-- The errors `resolveStringKey` is allowed to produce: the
unresolved-constant error or one of the invalid-key errors. -/
def keyErrorWellFormed (r : Except ParseError String) : Bool :=
  match r with
  | .ok _ => true
  | .error (.unresolvedConstant _) => true
  | .error (.keyNotStringLit _) => true
  | .error .invalidKeyExpression => true
  | .error _ => false

/-! ## Helper lemmas -/

theorem lookupConst_mem {consts : ConstTable} {k v : String}
    (h : lookupConst consts k = some v) : (k, v) ∈ consts := by
  induction consts with
  | nil => simp [lookupConst] at h
  | cons p rest ih =>
    rw [lookupConst] at h
    by_cases hk : p.1 = k
    · rw [if_pos hk] at h
      have : p = (k, v) := by
        cases p
        simp_all
      rw [this]
      exact List.mem_cons_self _ _
    · rw [if_neg hk] at h
      exact List.mem_cons_of_mem _ (ih h)

theorem lookupConst_cons_none {p : String × String} {t : ConstTable}
    {k : String} (h : lookupConst (p :: t) k = none) :
    p.1 ≠ k ∧ lookupConst t k = none := by
  rw [lookupConst] at h
  by_cases hk : p.1 = k
  · rw [if_pos hk] at h; cases h
  · rw [if_neg hk] at h; exact ⟨hk, h⟩

/-- Inversion of one successful step of the validation loop. -/
theorem validateLoop_cons_ok {e : EventDef} {rest : List EventDef}
    {seen : List String} {symbols : List (String × String)}
    (h : validateLoop (e :: rest) seen symbols = .ok ()) :
    e.Name ≠ "" ∧ containsInvalidEventRune e.Name = none ∧
      e.Name ∉ seen ∧ lookupConst symbols (PascalCase e.Name) = none ∧
      isValidGoIdent e.PayloadType = true ∧
      validateLoop rest (e.Name :: seen)
        ((PascalCase e.Name, e.Name) :: symbols) = .ok () := by
  rw [validateLoop] at h
  by_cases h1 : e.Name = ""
  · simp [h1] at h
  rw [if_neg h1] at h
  rcases hcir : containsInvalidEventRune e.Name with _ | r
  swap
  · simp only [hcir] at h; cases h
  simp only [hcir] at h
  by_cases h2 : e.Name ∈ seen
  · simp [h2] at h
  rw [if_neg h2] at h
  rcases hsym : lookupConst symbols (PascalCase e.Name) with _ | prev
  swap
  · simp only [hsym] at h; cases h
  simp only [hsym] at h
  by_cases h3 : isValidGoIdent e.PayloadType
  · exact ⟨h1, rfl, h2, rfl, h3, by simpa [h3] using h⟩
  · simp [h3] at h

/-- If a run of the validation loop succeeds, no processed event's symbol
was already present in the symbol table. -/
theorem validateLoop_lookup_none :
    ∀ (events : List EventDef) (seen : List String)
      (symbols : List (String × String)),
      validateLoop events seen symbols = .ok () →
      ∀ e ∈ events, lookupConst symbols (PascalCase e.Name) = none := by
  intro events
  induction events with
  | nil => intro _ _ _ e he; exact absurd he (List.not_mem_nil e)
  | cons e rest ih =>
    intro seen symbols h e' he'
    obtain ⟨_, _, _, hsym, _, hrec⟩ := validateLoop_cons_ok h
    rcases List.mem_cons.mp he' with rfl | hmem
    · exact hsym
    · exact (lookupConst_cons_none (ih _ _ hrec e' hmem)).2

/-- A successful validation run leaves the events pairwise distinct in
their normalized symbols. -/
theorem validateLoop_pairwise :
    ∀ (events : List EventDef) (seen : List String)
      (symbols : List (String × String)),
      validateLoop events seen symbols = .ok () →
      events.Pairwise fun e1 e2 => PascalCase e1.Name ≠ PascalCase e2.Name := by
  intro events
  induction events with
  | nil => intro _ _ _; exact List.Pairwise.nil
  | cons e rest ih =>
    intro seen symbols h
    obtain ⟨_, _, _, _, _, hrec⟩ := validateLoop_cons_ok h
    refine List.Pairwise.cons ?_ (ih _ _ hrec)
    intro e' he'
    have := validateLoop_lookup_none _ _ _ hrec e' he'
    exact fun heq => (lookupConst_cons_none this).1 heq

/-- Unfolding of one validation step when the per-event checks pass:
everything reduces to the symbol-collision lookup. -/
theorem validateLoop_cons_pass {e : EventDef} {rest : List EventDef}
    {seen : List String} {symbols : List (String × String)}
    (h1 : e.Name ≠ "") (h2 : containsInvalidEventRune e.Name = none)
    (h3 : e.Name ∉ seen) (h4 : isValidGoIdent e.PayloadType = true) :
    validateLoop (e :: rest) seen symbols =
      match lookupConst symbols (PascalCase e.Name) with
      | some prev =>
        .error (.symbolCollision prev e.Name (PascalCase e.Name))
      | none =>
        validateLoop rest (e.Name :: seen)
          ((PascalCase e.Name, e.Name) :: symbols) := by
  rw [validateLoop, if_neg h1]
  simp only [h2]
  rw [if_neg h3]
  rcases lookupConst symbols (PascalCase e.Name) with _ | prev
  · simp [h4]
  · rfl

/-- When every event passes the per-event checks, raw names are unique,
and nothing clashes with the accumulators, the validation loop either
succeeds or stops at a symbol collision between two distinct names that
normalize alike. -/
theorem validateLoop_collision :
    ∀ (events : List EventDef) (seen : List String)
      (symbols : List (String × String)),
      (∀ e ∈ events, e.Name ≠ "" ∧ containsInvalidEventRune e.Name = none ∧
        isValidGoIdent e.PayloadType = true) →
      (events.map EventDef.Name).Nodup →
      (∀ e ∈ events, e.Name ∉ seen) →
      (∀ p ∈ symbols, p.2 ∈ seen ∧ PascalCase p.2 = p.1) →
      validateLoop events seen symbols = .ok () ∨
        ∃ a b, validateLoop events seen symbols =
            .error (.symbolCollision a b (PascalCase b)) ∧
          b ∈ events.map EventDef.Name ∧
          (a ∈ seen ∨ a ∈ events.map EventDef.Name) ∧
          a ≠ b ∧ PascalCase a = PascalCase b := by
  intro events
  induction events with
  | nil => intro _ _ _ _ _ _; exact .inl rfl
  | cons e rest ih =>
    intro seen symbols hev hnodup hseen hsymbols
    obtain ⟨h1, h2, h4⟩ := hev e (List.mem_cons_self e rest)
    have h3 : e.Name ∉ seen := hseen e (List.mem_cons_self e rest)
    rw [validateLoop_cons_pass h1 h2 h3 h4]
    rw [List.map_cons, List.nodup_cons] at hnodup
    obtain ⟨hhead, htail⟩ := hnodup
    rcases hl : lookupConst symbols (PascalCase e.Name) with _ | prev
    · -- no collision on the head: recurse
      have := ih (e.Name :: seen) ((PascalCase e.Name, e.Name) :: symbols)
        (fun e' he' => hev e' (List.mem_cons_of_mem _ he'))
        htail
        (fun e' he' => by
          intro hc
          rcases List.mem_cons.mp hc with hh | hs
          · exact hhead (hh ▸ List.mem_map_of_mem EventDef.Name he')
          · exact hseen e' (List.mem_cons_of_mem _ he') hs)
        (fun p hp => by
          rcases List.mem_cons.mp hp with rfl | hs
          · exact ⟨List.mem_cons_self _ _, rfl⟩
          · obtain ⟨hs1, hs2⟩ := hsymbols p hs
            exact ⟨List.mem_cons_of_mem _ hs1, hs2⟩)
      rcases this with hok | ⟨a, b, heq, hb, ha, hne, hpc⟩
      · exact .inl hok
      · refine .inr ⟨a, b, heq, List.mem_cons_of_mem _ hb, ?_, hne, hpc⟩
        rcases ha with hs | hr
        · rcases List.mem_cons.mp hs with rfl | hs'
          · exact .inr (by simp)
          · exact .inl hs'
        · exact .inr (List.mem_cons_of_mem _ hr)
    · -- collision with an already-recorded symbol
      obtain ⟨hprevSeen, hprevSym⟩ := hsymbols _ (lookupConst_mem hl)
      refine .inr ⟨prev, e.Name, ?_, by simp, .inl hprevSeen, ?_, hprevSym⟩
      · rfl
      · exact fun hcontra => h3 (hcontra ▸ hprevSeen)

/-! ## Sort determinism -/

/-- The name order strengthened with name distinctness: the relation under
which a sorted list of unique-named events is canonical. -/
def eventLENe (a b : EventDef) : Prop := eventLE a b ∧ a.Name ≠ b.Name

instance : IsAntisymm EventDef eventLENe :=
  ⟨fun a b h1 h2 =>
    absurd (String.ext (charListLe_antisymm _ _ h1.1 h2.1)) h1.2⟩

theorem sortEvents_perm (l : List EventDef) : (sortEvents l).Perm l :=
  List.perm_insertionSort eventLE l

theorem sortEvents_sorted (l : List EventDef) :
    (sortEvents l).Sorted eventLE :=
  List.sorted_insertionSort eventLE l

/-- With pairwise-distinct names, sortedness upgrades to the strict
relation. -/
theorem sortEvents_sorted_ne {l : List EventDef}
    (h : (l.map EventDef.Name).Nodup) :
    (sortEvents l).Sorted eventLENe := by
  have hperm : ((sortEvents l).map EventDef.Name).Perm (l.map EventDef.Name) :=
    (sortEvents_perm l).map EventDef.Name
  have hnodup : ((sortEvents l).map EventDef.Name).Nodup := h.perm hperm.symm
  have hpw : (sortEvents l).Pairwise fun a b => a.Name ≠ b.Name := by
    rw [List.Nodup, List.pairwise_map] at hnodup
    exact hnodup
  exact (sortEvents_sorted l).and hpw

/-- Sorting by raw name is a function of the multiset of events whenever
names are unique: the emitted order does not depend on declaration or
discovery order. -/
theorem sortEvents_eq_of_perm {l₁ l₂ : List EventDef}
    (hperm : l₁.Perm l₂) (h : (l₁.map EventDef.Name).Nodup) :
    sortEvents l₁ = sortEvents l₂ := by
  have h₂ : (l₂.map EventDef.Name).Nodup := h.perm (hperm.map _)
  exact List.eq_of_perm_of_sorted
    ((sortEvents_perm l₁).trans (hperm.trans (sortEvents_perm l₂).symm))
    (sortEvents_sorted_ne h) (sortEvents_sorted_ne h₂)

theorem except_bind_error {ε α β : Type} (e : ε) (k : α → Except ε β) :
    (Except.error e >>= k) = .error e := rfl

theorem except_bind_ok {ε α β : Type} (a : α) (k : α → Except ε β) :
    (Except.ok a >>= k) = k a := rfl

theorem except_pure {ε α : Type} (a : α) :
    (pure a : Except ε α) = .ok a := rfl

theorem validate_ok_inv {events : List EventDef}
    (h : validate events = .ok ()) : validateLoop events [] [] = .ok () := by
  rw [validate] at h
  by_cases he : events.isEmpty
  · rw [if_pos he] at h; cases h
  · rwa [if_neg he] at h

/-! ## Claim theorems -/

/-- C6: with no directive present, the derived prefix is `""` for the
sentinel name `"Events"`, the remainder for a name ending in `"Events"`
with non-empty remainder, and the name unchanged otherwise; concretely
`"Events" → ""`, `"OrderEvents" → "Order"`, `"Commands" → "Commands"`,
`"MyBus" → "MyBus"`. -/
theorem c6_derive_prefix :
    (∀ v : String, DerivePrefix v = derivePrefixSpec v) ∧
    DerivePrefix "Events" = "" ∧ DerivePrefix "OrderEvents" = "Order" ∧
    DerivePrefix "Commands" = "Commands" ∧ DerivePrefix "MyBus" = "MyBus" := by
  refine ⟨?_, by decide, by decide, by decide, by decide⟩
  intro v
  rw [DerivePrefix, derivePrefixSpec]
  by_cases hv : v = "Events"
  · simp [hv]
  · rw [if_neg hv, if_neg hv, goCutSuffix]
    by_cases hs : goHasSuffix v "Events"
    · rw [if_pos hs]
      by_cases hr :
          (⟨v.data.take (v.data.length - "Events".data.length)⟩ : String) = ""
      · simp [hs, hr]
      · simp [hs, hr]
    · simp [hs]

/-- C7: key resolution accepts exactly three forms — a string literal
taken verbatim, a bare identifier looked up in the constant table (an
unresolved-constant error when absent), and a single-argument `string()`
conversion of an identifier resolved the same way — and every other key
form fails with an invalid-key error. -/
theorem c7_key_resolution :
    (∀ (key : GoExpr) (consts : ConstTable),
      classifyKeyResult (resolveStringKey key consts) =
        resolveStringKeySpec key consts) ∧
    (∀ (key : GoExpr) (consts : ConstTable),
      keyErrorWellFormed (resolveStringKey key consts) = true) := by
  constructor <;>
  · intro key consts
    rcases key with ⟨kind, v⟩ | n | ⟨fn, args⟩ | _
    · cases kind <;>
        simp [resolveStringKey, resolveStringKeySpec, classifyKeyResult,
          keyErrorWellFormed]
    · rcases h : lookupConst consts n with _ | val <;>
        simp [resolveStringKey, resolveStringKeySpec, classifyKeyResult,
          keyErrorWellFormed, h]
    · rcases fn with _ | f
      · simp [resolveStringKey, resolveStringKeySpec, classifyKeyResult,
          keyErrorWellFormed]
      · rcases args with _ | ⟨a, rest⟩
        · simp [resolveStringKey, resolveStringKeySpec, classifyKeyResult,
            keyErrorWellFormed]
        · rcases rest with _ | ⟨b, rest2⟩
          · by_cases hf : f = "string"
            · subst hf
              rcases a with n | _
              · rcases h : lookupConst consts n with _ | val <;>
                  simp [resolveStringKey, resolveStringKeySpec,
                    classifyKeyResult, keyErrorWellFormed, h]
              · simp [resolveStringKey, resolveStringKeySpec,
                  classifyKeyResult, keyErrorWellFormed]
            · simp [resolveStringKey, resolveStringKeySpec, classifyKeyResult,
                keyErrorWellFormed, hf]
          · simp [resolveStringKey, resolveStringKeySpec, classifyKeyResult,
              keyErrorWellFormed]
    · simp [resolveStringKey, resolveStringKeySpec, classifyKeyResult,
        keyErrorWellFormed]

/-- C2: a bus of capacity `C` subjected to `N > C` publishes with no
draining enqueues exactly `C` messages and drops the other `N - C`; the
on-publish hook fires exactly `C` times and the on-drop hook exactly
`N - C` times. `publish` is a total function into the next bus state —
it never blocks and never returns an error to its caller. -/
theorem c2_bus_capacity {α : Type} (C : Nat) (msgs : List (String × α))
    (h : C < msgs.length) :
    (publishAll (newBus α C) msgs).publishCount = C ∧
    (publishAll (newBus α C) msgs).dropCount = msgs.length - C ∧
    (publishAll (newBus α C) msgs).queue.length = C := by
  have := publishAll_spec msgs (newBus α C) (by simp [newBus])
  simp only [newBus, List.length_nil] at this ⊢
  omega

/-- Witness for C2: capacity 1, two publishes — one enqueued, one
dropped. -/
theorem c2_bus_capacity_witness :
    (publishAll (newBus Nat 1) [("a", 0), ("b", 1)]).publishCount = 1 ∧
    (publishAll (newBus Nat 1) [("a", 0), ("b", 1)]).dropCount = 1 ∧
    (publishAll (newBus Nat 1) [("a", 0), ("b", 1)]).queue.length = 1 :=
  c2_bus_capacity 1 [("a", 0), ("b", 1)] (by decide)

/-- The single-name, single-value constant declaration used to settle
C10. -/
def constFile (fname cname : String) (v : GoExpr) : GoFile :=
  ⟨fname, [], [.constDecl [⟨[cname], [v]⟩]]⟩

/-- A one-binding `var Events = map[string]any{<key>: T{}}` file. -/
def mapVarFile (key : GoExpr) : GoFile :=
  ⟨"events.go", [],
    [.varDecl []
      [⟨[], ["Events"],
        [.composite (.mapType (some "string") (some "any"))
          [.kv key (.composite (.identT "T"))]]⟩]]⟩

/-- C10: a package-level constant with a non-string literal value is
still entered in the constant table with the empty string as its value; a
map key referencing it therefore resolves to the empty event name and is
rejected by validation as an empty name, not as an unresolved
constant. -/
theorem c10_nonstring_const :
    (∀ (fname cname v : String) (k : LitKind), k ≠ .str →
      lookupConst (collectStringConsts [constFile fname cname (.lit k v)])
          cname = some "" ∧
      resolveStringKey (.identE cname)
          (collectStringConsts [constFile fname cname (.lit k v)]) =
        .ok "") ∧
    (Parse [⟨"demo", [constFile "c.go" "X" (.lit .int "5"),
        mapVarFile (.identE "X")]⟩] "Events" = .error .emptyEventName ∧
      Parse [⟨"demo", [constFile "c.go" "X" (.lit .int "5"),
        mapVarFile (.identE "X")]⟩] "Events" ≠
          .error (.unresolvedConstant "X")) := by
  constructor
  · intro fname cname v k hk
    have hl : lookupConst (collectStringConsts [constFile fname cname (.lit k v)])
        cname = some "" := by
      simp [collectStringConsts, constPass, constFile, applyConstDecl,
        applyConstSpec, assignNames, resolveStringValues, insertConst,
        lookupConst, hk]
    exact ⟨hl, by rw [resolveStringKey, hl]⟩
  · exact ⟨by decide, by decide⟩

/-- Witness for C10: an integer constant, entered with value `""`. -/
theorem c10_nonstring_const_witness :
    lookupConst (collectStringConsts [constFile "c.go" "X" (.lit .int "5")])
        "X" = some "" ∧
    resolveStringKey (.identE "X")
        (collectStringConsts [constFile "c.go" "X" (.lit .int "5")]) =
      .ok "" :=
  c10_nonstring_const.1 "c.go" "X" "5" .int (by decide)

/-- A grouped declaration carrying a `//gobusgen:prefix` directive both on
the declaration group and on the specific binding. -/
def bothDirectivesFile : GoFile :=
  { name := "events.go", comments := [],
    decls := [.varDecl ["//gobusgen:prefix Group"]
      [{ doc := ["//gobusgen:prefix Binding"], names := ["Events"],
         values := [.composite (.mapType (some "string") (some "any"))
           [.kv (.lit .str "a.b") (.composite (.identT "T"))]] }]] }

/-- C1 counterexample: with a directive on the declaration group
(`Group`) and one on the binding (`Binding`), the parsed prefix is the
group's value, not the binding's — the binding-level directive does not
override the group-level one. -/
theorem c1_counterexample :
    Parse [⟨"demo", [bothDirectivesFile]⟩] "Events" =
      .ok ⟨"demo", "Events", "Group", [⟨"a.b", "T"⟩]⟩ ∧
    ("Group" : String) ≠ "Binding" := by
  exact ⟨by decide, by decide⟩

/-- C1 (amended): the group-level directive takes precedence over the
binding-level directive (the binding's doc is consulted only when the
group doc carries no directive), and any present directive — including an
empty one — overrides derivation from the binding name. -/
theorem c1_directive_precedence :
    (∀ (gdoc vdoc : List String) (g : String),
      extractPrefixDirective gdoc = some g → declPrefix gdoc vdoc = some g) ∧
    (∀ gdoc vdoc : List String, extractPrefixDirective gdoc = none →
      declPrefix gdoc vdoc = extractPrefixDirective vdoc) ∧
    (∀ (pkgs : List GoPackage) (varName : String) (m : MatchInfo)
        (p : String),
      collectMatches pkgs varName = .ok [m] → m.prefixDirective = some p →
      validate m.events = .ok () →
      Parse pkgs varName = .ok ⟨m.pkg, varName, p, sortEvents m.events⟩) := by
  refine ⟨?_, ?_, ?_⟩
  · intro gdoc vdoc g h; rw [declPrefix, h]
  · intro gdoc vdoc h; rw [declPrefix, h]
  · intro pkgs varName m p hc hp hv
    simp only [Parse, hc, finishMatch, hv, hp]

/-- Witness for C1: the group directive wins over the binding directive,
and an explicit directive (`"Group"`) overrides derivation end to end. -/
theorem c1_directive_precedence_witness :
    declPrefix ["//gobusgen:prefix Group"] ["//gobusgen:prefix Binding"] =
      some "Group" ∧
    Parse [⟨"demo", [bothDirectivesFile]⟩] "Events" =
      .ok ⟨"demo", "Events", "Group", sortEvents [⟨"a.b", "T"⟩]⟩ :=
  ⟨c1_directive_precedence.1 _ _ "Group" (by decide),
   c1_directive_precedence.2.2 [⟨"demo", [bothDirectivesFile]⟩] "Events"
     ⟨"demo", [⟨"a.b", "T"⟩], some "Group"⟩ "Group" (by decide) rfl
     (by decide)⟩

/-- A three-hop constant chain (`A = B`, `B = C`, `C = "x"`) laid out in
the adversarial iteration order, plus a map keyed by `A`. -/
def chain3Pkg : List GoPackage :=
  [⟨"demo", [constFile "a.go" "A" (.identE "B"),
             constFile "b.go" "B" (.identE "C"),
             constFile "c.go" "C" (.lit .str "x"),
             mapVarFile (.identE "A")]⟩]

/-- C3 counterexample: a chain needing a third pass does not fail as an
unresolved constant — the two passes leave `A` bound to `""` in the
table, so the pipeline fails as an empty event name. -/
theorem c3_counterexample :
    Parse chain3Pkg "Events" = .error .emptyEventName ∧
    Parse chain3Pkg "Events" ≠ .error (.unresolvedConstant "A") ∧
    Parse chain3Pkg "Events" ≠ .error (.unresolvedConstant "B") ∧
    Parse chain3Pkg "Events" ≠ .error (.unresolvedConstant "C") := by
  exact ⟨by decide, by decide, by decide, by decide⟩

/-- C3 (amended): constant resolution performs exactly two passes over the
full declaration set; a two-hop alias chain (`A = "x"`, `B = A`) resolves
to `"x"` in either file order; a chain requiring more than two passes may
remain unresolved — its table entry is the empty string — and then fails
validation as an empty event name rather than being silently accepted
(and not as an unresolved constant). -/
theorem c3_two_pass_resolution :
    (∀ files : List GoFile,
      collectStringConsts files = constPass files (constPass files [])) ∧
    (∀ x : String,
      lookupConst (collectStringConsts
        [constFile "a.go" "A" (.lit .str x),
         constFile "b.go" "B" (.identE "A")]) "B" = some x ∧
      lookupConst (collectStringConsts
        [constFile "b.go" "B" (.identE "A"),
         constFile "a.go" "A" (.lit .str x)]) "B" = some x) ∧
    (lookupConst (collectStringConsts
        [constFile "a.go" "A" (.identE "B"),
         constFile "b.go" "B" (.identE "C"),
         constFile "c.go" "C" (.lit .str "x")]) "A" = some "" ∧
     Parse chain3Pkg "Events" = .error .emptyEventName) := by
  refine ⟨fun _ => rfl, ?_, by decide, by decide⟩
  intro x
  constructor <;>
    simp [collectStringConsts, constPass, constFile, applyConstDecl,
      applyConstSpec, assignNames, resolveStringValues, insertConst,
      lookupConst]

/-- A file is invisible to the scan when its name has the test suffix:
`ParseDir` filters it before packages are formed. -/
theorem nonTestFiles_cons_test {f : GoFile} (fs : List GoFile)
    (h : goHasSuffix f.name "_test.go" = true) :
    nonTestFiles (f :: fs) = nonTestFiles fs := by
  simp [nonTestFiles, List.filter_cons, h]

theorem nonTestFiles_cons_nontest {f : GoFile} (fs : List GoFile)
    (h : goHasSuffix f.name "_test.go" = false) :
    nonTestFiles (f :: fs) = f :: nonTestFiles fs := by
  simp [nonTestFiles, List.filter_cons, h]

/-- C8: scanning the source set for the target binding, with generated
files and test files excluded: zero matches is a declaration-not-found
error, two or more matches (packages included) is an
ambiguous-declaration error, and exactly one match proceeds to
validation. Generated files contribute nothing to the scan, and test
files are invisible to the whole parse. -/
theorem c8_scan_match_count :
    (∀ (pkgs : List GoPackage) (varName : String),
      collectMatches pkgs varName = .ok [] →
      Parse pkgs varName = .error (.declarationNotFound varName)) ∧
    (∀ (pkgs : List GoPackage) (varName : String) (ms : List MatchInfo),
      collectMatches pkgs varName = .ok ms → 2 ≤ ms.length →
      Parse pkgs varName = .error (.ambiguousDeclaration varName)) ∧
    (∀ (pkgs : List GoPackage) (varName : String) (m : MatchInfo),
      collectMatches pkgs varName = .ok [m] →
      Parse pkgs varName = finishMatch varName m) ∧
    (∀ (pkgName : String) (f : GoFile) (fs : List GoFile) (varName : String)
        (consts : ConstTable), isGeneratedFile f = true →
      scanFiles pkgName (f :: fs) varName consts =
        scanFiles pkgName fs varName consts) ∧
    (∀ (pkgName : String) (f : GoFile) (fs : List GoFile)
        (ps : List GoPackage) (varName : String),
      goHasSuffix f.name "_test.go" = true →
      Parse (⟨pkgName, f :: fs⟩ :: ps) varName =
        Parse (⟨pkgName, fs⟩ :: ps) varName) := by
  refine ⟨?_, ?_, ?_, ?_, ?_⟩
  · intro pkgs varName h; rw [Parse, h]
  · intro pkgs varName ms h hlen
    rw [Parse, h]
    rcases ms with _ | ⟨m1, _ | ⟨m2, rest⟩⟩
    · simp at hlen
    · simp at hlen
    · rfl
  · intro pkgs varName m h; rw [Parse, h]
  · intro pkgName f fs varName consts h
    rw [scanFiles, scanFiles, List.foldlM_cons]
    simp [h]
  · intro pkgName f fs ps varName h
    rw [Parse, Parse, collectMatches, collectMatches,
      List.foldlM_cons, List.foldlM_cons]
    simp only [nonTestFiles_cons_test fs h]

/-- Witness for C8: zero matches, one match, two matches across two
distinct packages, a generated file skipped, a test file invisible. -/
theorem c8_scan_match_count_witness :
    Parse [⟨"demo", []⟩] "Events" = .error (.declarationNotFound "Events") ∧
    Parse [⟨"pkga", [mapVarFile (.lit .str "a.b")]⟩,
           ⟨"pkgb", [mapVarFile (.lit .str "a.b")]⟩] "Events" =
      .error (.ambiguousDeclaration "Events") ∧
    Parse [⟨"demo", [mapVarFile (.lit .str "a.b")]⟩] "Events" =
      finishMatch "Events" ⟨"demo", [⟨"a.b", "T"⟩], none⟩ ∧
    scanFiles "demo"
        [⟨"g.go", ["// Code generated by gobusgen. DO NOT EDIT."],
          [.varDecl []
            [⟨[], ["Events"],
              [.composite (.mapType (some "string") (some "any"))
                [.kv (.lit .str "a.b") (.composite (.identT "T"))]]⟩]]⟩]
        "Events" [] =
      scanFiles "demo" [] "Events" [] ∧
    Parse [⟨"demo", [⟨"events_test.go", [],
        [.varDecl []
          [⟨[], ["Events"],
            [.composite (.mapType (some "string") (some "any"))
              [.kv (.lit .str "a.b") (.composite (.identT "T"))]]⟩]]⟩]⟩]
        "Events" =
      Parse [⟨"demo", []⟩] "Events" :=
  ⟨c8_scan_match_count.1 [⟨"demo", []⟩] "Events" (by decide),
   c8_scan_match_count.2.1 _ "Events"
     [⟨"pkga", [⟨"a.b", "T"⟩], none⟩, ⟨"pkgb", [⟨"a.b", "T"⟩], none⟩]
     (by decide) (by decide),
   c8_scan_match_count.2.2.1 _ "Events" ⟨"demo", [⟨"a.b", "T"⟩], none⟩
     (by decide),
   c8_scan_match_count.2.2.2.1 "demo" _ [] "Events" [] (by decide),
   c8_scan_match_count.2.2.2.2 "demo" _ [] [] "Events" (by decide)⟩

/-- C9: an extraction failure on the matching declaration found first
aborts the whole parse with that extraction error, without scanning the
remaining files — so an extraction-invalid match followed by a second
match yields the extraction error, never the ambiguity error. -/
theorem c9_extraction_error_aborts (pkgName : String) (f : GoFile)
    (fs : List GoFile) (ps : List GoPackage) (varName : String)
    (e : ParseError)
    (hnt : goHasSuffix f.name "_test.go" = false)
    (hng : isGeneratedFile f = false)
    (hf : findMapVar f varName
      (collectStringConsts (nonTestFiles (f :: fs))) = .error e) :
    Parse (⟨pkgName, f :: fs⟩ :: ps) varName = .error e := by
  have hscan : scanFiles pkgName (nonTestFiles (f :: fs)) varName
      (collectStringConsts (nonTestFiles (f :: fs))) = .error e := by
    rw [nonTestFiles_cons_nontest fs hnt] at hf ⊢
    rw [scanFiles, List.foldlM_cons]
    simp [hng, hf, except_bind_error]
  have hcm : collectMatches (⟨pkgName, f :: fs⟩ :: ps) varName = .error e := by
    rw [collectMatches, List.foldlM_cons]
    simp only [hscan, except_bind_error]
  rw [Parse, hcm]

/-- Witness for C9: a file whose map has an invalid key form, followed by
a second valid match — the result is the invalid-key error, not
ambiguity. -/
theorem c9_extraction_error_aborts_witness :
    Parse [⟨"demo", [mapVarFile .other,
      ⟨"good.go", [],
        [.varDecl []
          [⟨[], ["Events"],
            [.composite (.mapType (some "string") (some "any"))
              [.kv (.lit .str "a.b") (.composite (.identT "T"))]]⟩]]⟩]⟩]
      "Events" = .error .invalidKeyExpression :=
  c9_extraction_error_aborts "demo" (mapVarFile .other) _ [] "Events"
    .invalidKeyExpression (by decide) (by decide) (by decide)

/-- A two-event map file whose entries are deliberately out of order. -/
def twoEventFile : GoFile :=
  ⟨"events.go", [],
    [.varDecl []
      [⟨[], ["Events"],
        [.composite (.mapType (some "string") (some "any"))
          [.kv (.lit .str "b.b") (.composite (.identT "T")),
           .kv (.lit .str "a.b") (.composite (.identT "U"))]]⟩]]⟩

/-- C5: whenever `Parse` succeeds, the returned events are sorted
ascending by raw name under the byte-wise lexicographic order, and the
sorted sequence is a function of the event multiset alone — it does not
depend on declaration or discovery order. -/
theorem c5_sorted_output :
    (∀ (pkgs : List GoPackage) (varName : String) (out : GenerateInput),
      Parse pkgs varName = .ok out → out.Events.Sorted eventLE) ∧
    (∀ l₁ l₂ : List EventDef, l₁.Perm l₂ → (l₁.map EventDef.Name).Nodup →
      sortEvents l₁ = sortEvents l₂) := by
  constructor
  · intro pkgs varName out h
    rcases hc : collectMatches pkgs varName with e | ms
    · rw [Parse, hc] at h; cases h
    · rw [Parse, hc] at h
      rcases ms with _ | ⟨m, _ | ⟨m2, rest⟩⟩
      · cases h
      · rcases hv : validate m.events with e' | u
        · simp only [finishMatch, hv] at h; cases h
        · simp only [finishMatch, hv] at h
          cases h
          exact sortEvents_sorted _
      · cases h
  · exact fun l₁ l₂ hp hn => sortEvents_eq_of_perm hp hn

/-- Witness for C5: a parse with out-of-order entries comes back sorted,
and two permuted event lists sort identically. -/
theorem c5_sorted_output_witness :
    (GenerateInput.mk "demo" "Events" ""
      (sortEvents [⟨"b.b", "T"⟩, ⟨"a.b", "U"⟩])).Events.Sorted eventLE ∧
    sortEvents [⟨"b.b", "T"⟩, ⟨"a.b", "U"⟩] =
      sortEvents [⟨"a.b", "U"⟩, ⟨"b.b", "T"⟩] :=
  ⟨c5_sorted_output.1 [⟨"demo", [twoEventFile]⟩] "Events"
     (GenerateInput.mk "demo" "Events" ""
       (sortEvents [⟨"b.b", "T"⟩, ⟨"a.b", "U"⟩])) (by decide),
   c5_sorted_output.2 [⟨"b.b", "T"⟩, ⟨"a.b", "U"⟩]
     [⟨"a.b", "U"⟩, ⟨"b.b", "T"⟩]
     (List.Perm.swap (⟨"a.b", "U"⟩ : EventDef) ⟨"b.b", "T"⟩ [])
     (by decide)⟩

/-- C4: symbol normalization is injective over every validator-accepted
schema; and on a schema whose only flaw is a collision — names non-empty
and well-formed, raw names unique, payloads valid — two distinct raw
names normalizing alike are rejected with a symbol-collision error
naming both source names. -/
theorem c4_normalization_injective :
    (∀ events : List EventDef, validate events = .ok () →
      ∀ e1 ∈ events, ∀ e2 ∈ events,
        PascalCase e1.Name = PascalCase e2.Name → e1.Name = e2.Name) ∧
    (∀ events : List EventDef,
      (∀ e ∈ events, e.Name ≠ "" ∧ containsInvalidEventRune e.Name = none ∧
        isValidGoIdent e.PayloadType = true) →
      (events.map EventDef.Name).Nodup →
      (∃ e1 ∈ events, ∃ e2 ∈ events, e1.Name ≠ e2.Name ∧
        PascalCase e1.Name = PascalCase e2.Name) →
      ∃ a b, validate events = .error (.symbolCollision a b (PascalCase b)) ∧
        a ∈ events.map EventDef.Name ∧ b ∈ events.map EventDef.Name ∧
        a ≠ b ∧ PascalCase a = PascalCase b) := by
  have hsymm :
      Symmetric fun e1 e2 : EventDef =>
        PascalCase e1.Name ≠ PascalCase e2.Name :=
    fun _ _ h => h.symm
  constructor
  · intro events hv e1 he1 e2 he2 heq
    by_cases hne : e1 = e2
    · rw [hne]
    · have hpw := validateLoop_pairwise events [] [] (validate_ok_inv hv)
      exact absurd heq (hpw.forall hsymm he1 he2 hne)
  · intro events hev hnodup hcol
    obtain ⟨e1, he1, e2, he2, hne, heq⟩ := hcol
    have hval : validate events = validateLoop events [] [] := by
      rw [validate, if_neg]
      intro hemp
      rw [List.isEmpty_iff] at hemp
      subst hemp
      exact absurd he1 (List.not_mem_nil _)
    rcases validateLoop_collision events [] [] hev hnodup (by simp) (by simp)
      with hok | ⟨a, b, hres, hb, ha, hab, hpc⟩
    · exfalso
      have hpw := validateLoop_pairwise events [] [] hok
      have hne' : e1 ≠ e2 := fun hc => hne (by rw [hc])
      exact (hpw.forall hsymm he1 he2 hne') heq
    · refine ⟨a, b, hval.trans hres, ?_, hb, hab, hpc⟩
      rcases ha with h0 | h1
      · exact absurd h0 (List.not_mem_nil _)
      · exact h1

/-- Witness for C4: `"a.b"` and `"a_b"` both normalize to `"AB"` and are
rejected with a symbol collision naming both. -/
theorem c4_normalization_injective_witness :
    ("a.b" : String) = "a.b" ∧
    (∃ a b, validate [⟨"a.b", "T"⟩, ⟨"a_b", "U"⟩] =
        .error (.symbolCollision a b (PascalCase b)) ∧
      a ∈ [(⟨"a.b", "T"⟩ : EventDef), ⟨"a_b", "U"⟩].map EventDef.Name ∧
      b ∈ [(⟨"a.b", "T"⟩ : EventDef), ⟨"a_b", "U"⟩].map EventDef.Name ∧
      a ≠ b ∧ PascalCase a = PascalCase b) :=
  ⟨c4_normalization_injective.1 [⟨"a.b", "T"⟩] (by decide)
     ⟨"a.b", "T"⟩ (by decide) ⟨"a.b", "T"⟩ (by decide) (by decide),
   c4_normalization_injective.2 [⟨"a.b", "T"⟩, ⟨"a_b", "U"⟩] (by decide)
     (by decide)
     ⟨⟨"a.b", "T"⟩, by decide, ⟨"a_b", "U"⟩, by decide, by decide,
       by decide⟩⟩

end Gobusgen
